import Mathlib

/-!
# Verification of the varu64 codec (`src/lib.rs`)

Shallow embedding of the varu64 variable-length integer codec:
`encoding_length`, `encode` (with its big-endian helper `write_bytes`) and
`decode`.  Bytes are modelled as `Nat` (with explicit `< 256` bounds where a
statement ranges over byte slices), buffers as `List Nat`, `u64` arithmetic
with explicit `% 2^64`, and Rust's panicking slice operations as `Option`
(`none` = panic).
-/

set_option maxRecDepth 100000

namespace Varu64

/-- Rust `encoding_length(n: u64) -> usize`: how many bytes the encoding of
`n` takes up. -/
def encoding_length (n : Nat) : Nat :=
  if n < 248 then 1
  else if n < 256 then 2
  else if n < 65536 then 3
  else if n < 16777216 then 4
  else if n < 4294967296 then 5
  else if n < 1099511627776 then 6
  else if n < 281474976710656 then 7
  else if n < 72057594037927936 then 8
  else 9

/-- The 8-byte big-endian representation of a `u64`, as produced by
`transmute(u64::to_be(n))` in `write_bytes`. -/
def be_bytes (n : Nat) : List Nat :=
  [n / 2 ^ 56 % 256, n / 2 ^ 48 % 256, n / 2 ^ 40 % 256, n / 2 ^ 32 % 256,
   n / 2 ^ 24 % 256, n / 2 ^ 16 % 256, n / 2 ^ 8 % 256, n % 256]

/-- The loop `for i in 0..k { out[i] = bytes[(8 - k) + i]; }` of `write_bytes`,
with the trip count as the final (structural) argument.  `none` models the
panic when an index is out of bounds. -/
def write_bytes_go (bytes : List Nat) (k : Nat) (out : List Nat) (i : Nat) :
    Nat → Option (List Nat)
  | 0 => some out
  | remaining + 1 =>
    match bytes.get? (8 - k + i) with
    | some b =>
      if i < out.length then write_bytes_go bytes k (out.set i b) (i + 1) remaining
      else none
    | none => none

/-- Rust `write_bytes(n, k, out)`: write the `k` least significant bytes of
`n` into `out`, in big-endian byte order, panicking if `out` is too small. -/
def write_bytes (n : Nat) (k : Nat) (out : List Nat) : Option (List Nat) :=
  write_bytes_go (be_bytes n) k out 0 k

/-- Rust `encode(n, out) -> usize`: encode `n` into `out`, returning the
updated buffer and how many bytes have been written; `none` models the panic
when the buffer is too small (`out[0]` or any write of `write_bytes` out of
bounds). -/
def encode (n : Nat) (out : List Nat) : Option (List Nat × Nat) :=
  if n < 248 then
    match out with
    | [] => none
    | _ :: rest => some ((n % 256) :: rest, 1)
  else if n < 256 then
    match out with
    | [] => none
    | _ :: rest => (write_bytes n 1 rest).map fun t => (248 :: t, 2)
  else if n < 65536 then
    match out with
    | [] => none
    | _ :: rest => (write_bytes n 2 rest).map fun t => (249 :: t, 3)
  else if n < 16777216 then
    match out with
    | [] => none
    | _ :: rest => (write_bytes n 3 rest).map fun t => (250 :: t, 4)
  else if n < 4294967296 then
    match out with
    | [] => none
    | _ :: rest => (write_bytes n 4 rest).map fun t => (251 :: t, 5)
  else if n < 1099511627776 then
    match out with
    | [] => none
    | _ :: rest => (write_bytes n 5 rest).map fun t => (252 :: t, 6)
  else if n < 281474976710656 then
    match out with
    | [] => none
    | _ :: rest => (write_bytes n 6 rest).map fun t => (253 :: t, 7)
  else if n < 72057594037927936 then
    match out with
    | [] => none
    | _ :: rest => (write_bytes n 7 rest).map fun t => (254 :: t, 8)
  else
    match out with
    | [] => none
    | _ :: rest => (write_bytes n 8 rest).map fun t => (255 :: t, 9)

/-- Rust `enum DecodeError`. -/
inductive DecodeError where
  | NonCanonical (n : Nat)
  | UnexpectedEndOfInput
deriving DecidableEq, Repr

/-- The result type of `decode`:
`Result<(u64, &[u8]), (DecodeError, &[u8])>`. -/
inductive DecodeResult where
  | ok (value : Nat) (rest : List Nat)
  | err (e : DecodeError) (rest : List Nat)
deriving DecidableEq, Repr

/-- Rust slice expression `&input[i..]`: `none` models the panic when
`i > input.len()`. -/
def sliceFrom (l : List Nat) (i : Nat) : Option (List Nat) :=
  if i ≤ l.length then some (l.drop i) else none

/-- The accumulation loop `for i in 1..length { out <<= 8; ... out += b }` of
`decode`, with the remaining trip count as the final (structural) argument.
`.error i` is the early return `Err((UnexpectedEndOfInput, &input[i..]))`
recording the index `i` of the missing byte. -/
def decodeLoop (input : List Nat) (i : Nat) (out : Nat) :
    Nat → Except Nat Nat
  | 0 => .ok out
  | remaining + 1 =>
    match input.get? i with
    | some b => decodeLoop input (i + 1) (((out <<< 8) % 2 ^ 64 + b) % 2 ^ 64) remaining
    | none => .error i

/-- Rust `decode(input)`: decode a `u64` from `input`, returning the number
and the remaining bytes, or a `DecodeError` with the remaining bytes.  The
outer `Option` models panics (`none`); given the in-bounds slice accesses of
the source, `decode` in fact never returns `none` (proved below). -/
def decode (input : List Nat) : Option DecodeResult :=
  match input.get? 0 with
  | none => some (.err .UnexpectedEndOfInput input)
  | some first =>
    if first ||| 7 = 255 then
      -- first five bits are ones, value is 248 or more
      let length := (first &&& 7) + 2
      match decodeLoop input 1 0 (length - 1) with
      | .error i =>
        match sliceFrom input i with
        | some rest => some (.err .UnexpectedEndOfInput rest)
        | none => none
      | .ok out =>
        match sliceFrom input length with
        | some rest =>
          if length > encoding_length out then some (.err (.NonCanonical out) rest)
          else some (.ok out rest)
        | none => none
    else
      -- value is less than 248
      match sliceFrom input 1 with
      | some rest => some (.ok first rest)
      | none => none

/-- The mathematical big-endian value of a byte list continuing from
accumulator `a` (the spec's `accumulator = (accumulator << 8) | byte` without
any wraparound). -/
def bePlus (a : Nat) (l : List Nat) : Nat :=
  l.foldl (fun x b => x * 256 + b) a

/-- The big-endian value of a byte list. -/
def beVal (l : List Nat) : Nat := bePlus 0 l

/-- The accumulation of `decodeLoop` as a fold (with the `u64` wraparound of
the source). -/
def accumList (a : Nat) (l : List Nat) : Nat :=
  l.foldl (fun x b => ((x <<< 8) % 2 ^ 64 + b) % 2 ^ 64) a

/-- The byte sequence `encode` writes for `n`: either the single byte `n`, or
the header `246 + L` followed by the `L - 1` least significant bytes of `n`
in big-endian order, where `L = encoding_length n`. -/
def encBytes (n : Nat) : List Nat :=
  if n < 248 then [n]
  else (246 + encoding_length n) :: (be_bytes n).drop (9 - encoding_length n)

example : encoding_length 247 = 1 := by decide
example : encoding_length 256 = 3 := by decide
example : encode 256 [0, 0, 0] = some ([249, 1, 0], 3) := by decide
example : decode [249, 1, 0] = some (.ok 256 []) := by decide
example : decode [248, 42] = some (.err (.NonCanonical 42) []) := by decide
example : decode [248] = some (.err .UnexpectedEndOfInput []) := by decide
example : decode [] = some (.err .UnexpectedEndOfInput []) := by decide

/-! ## Arithmetic facts about `encoding_length` -/

theorem encoding_length_pos (n : Nat) : 1 ≤ encoding_length n := by
  unfold encoding_length; split_ifs <;> omega

theorem encoding_length_le_nine (n : Nat) : encoding_length n ≤ 9 := by
  unfold encoding_length; split_ifs <;> omega

theorem encoding_length_two_le (n : Nat) (h : 248 ≤ n) : 2 ≤ encoding_length n := by
  unfold encoding_length; split_ifs <;> omega

theorem encoding_length_lt_pow (n : Nat) (h64 : n < 2 ^ 64) :
    n < 2 ^ (8 * (encoding_length n - 1)) ∨ n < 248 := by
  unfold encoding_length
  split_ifs with h1 h2 h3 h4 h5 h6 h7 h8 <;> [right; left; left; left; left; left; left; left; left] <;>
    norm_num <;> omega

theorem encoding_length_le_of_lt_pow (L out : Nat) (h2 : 2 ≤ L) (h9 : L ≤ 9)
    (h : out < 2 ^ (8 * (L - 1))) : encoding_length out ≤ L := by
  interval_cases L <;> (unfold encoding_length; norm_num at h; split_ifs <;> omega)

/-! ## Header-byte bit arithmetic -/

theorem header_or_of_big : ∀ f < 256, 248 ≤ f → f ||| 7 = 255 := by decide

theorem header_and_of_big : ∀ f < 256, 248 ≤ f → f &&& 7 = f - 248 := by decide

theorem header_or_of_small : ∀ f < 248, ¬f ||| 7 = 255 := by decide

theorem lt_of_header_or_ne : ∀ f < 256, ¬f ||| 7 = 255 → f < 248 := by decide

theorem header_and_lt (f : Nat) : f &&& 7 ≤ 7 :=
  Nat.le_of_lt_succ (Nat.lt_succ_of_le (Nat.and_le_right))

/-! ## Big-endian accumulation -/

theorem bePlus_nil (a : Nat) : bePlus a [] = a := rfl

theorem bePlus_cons (a b : Nat) (l : List Nat) :
    bePlus a (b :: l) = bePlus (a * 256 + b) l := rfl

theorem le_bePlus (l : List Nat) : ∀ a : Nat, a ≤ bePlus a l := by
  induction l with
  | nil => intro a; exact Nat.le_refl a
  | cons b l ih =>
    intro a
    calc a ≤ a * 256 + b := by omega
    _ ≤ bePlus (a * 256 + b) l := ih _
    _ = bePlus a (b :: l) := rfl

theorem bePlus_lt (l : List Nat) : ∀ a : Nat, (∀ b ∈ l, b < 256) →
    bePlus a l < (a + 1) * 256 ^ l.length := by
  induction l with
  | nil => intro a _; simp [bePlus]
  | cons b l ih =>
    intro a hb
    have hb256 : b < 256 := hb b (List.mem_cons_self b l)
    have htail : ∀ x ∈ l, x < 256 := fun x hx => hb x (List.mem_cons_of_mem b hx)
    have h1 : bePlus a (b :: l) < (a * 256 + b + 1) * 256 ^ l.length := by
      rw [bePlus_cons]; exact ih _ htail
    have h2 : (a * 256 + b + 1) * 256 ^ l.length ≤ ((a + 1) * 256) * 256 ^ l.length :=
      Nat.mul_le_mul_right _ (by omega)
    calc bePlus a (b :: l) < (a * 256 + b + 1) * 256 ^ l.length := h1
    _ ≤ ((a + 1) * 256) * 256 ^ l.length := h2
    _ = (a + 1) * 256 ^ (b :: l).length := by ring_nf; rw [List.length_cons]; ring

theorem accumList_nil (a : Nat) : accumList a [] = a := rfl

theorem accumList_cons (a b : Nat) (l : List Nat) :
    accumList a (b :: l) = accumList (((a <<< 8) % 2 ^ 64 + b) % 2 ^ 64) l := rfl

theorem accumList_eq_bePlus (l : List Nat) : ∀ a : Nat, bePlus a l < 2 ^ 64 →
    accumList a l = bePlus a l := by
  induction l with
  | nil => intro a _; rfl
  | cons b l ih =>
    intro a hlt
    have hstep : a * 256 + b ≤ bePlus a (b :: l) := by
      rw [bePlus_cons]; exact le_bePlus l _
    have hsmall : a * 256 + b < 2 ^ 64 := lt_of_le_of_lt hstep hlt
    have hshift : (a <<< 8) % 2 ^ 64 = a * 256 := by
      rw [Nat.shiftLeft_eq]
      norm_num
      omega
    rw [accumList_cons, hshift, Nat.mod_eq_of_lt hsmall, bePlus_cons]
    exact ih _ (by rw [bePlus_cons] at hlt; exact hlt)

/-! ## `be_bytes` and `write_bytes` -/

theorem be_bytes_length (n : Nat) : (be_bytes n).length = 8 := rfl

theorem be_bytes_lt (n : Nat) : ∀ b ∈ be_bytes n, b < 256 := by
  intro b hb
  simp only [be_bytes, List.mem_cons, List.not_mem_nil, or_false] at hb
  rcases hb with h | h | h | h | h | h | h | h <;> subst h <;> exact Nat.mod_lt _ (by norm_num)

theorem bePlus_be_bytes_drop (n : Nat) :
    ∀ k ≤ 8, bePlus 0 ((be_bytes n).drop (8 - k)) = n % 2 ^ (8 * k) := by
  intro k hk
  interval_cases k <;>
    simp only [be_bytes, List.drop, bePlus, List.foldl] <;> omega

theorem write_bytes_go_spec (bytes : List Nat) (k : Nat) (hk : k ≤ 8)
    (hbytes : bytes.length = 8) :
    ∀ remaining i out, i + remaining = k → k ≤ List.length out →
      write_bytes_go bytes k out i remaining =
        some (out.take i ++ (bytes.drop (8 - k + i)).take remaining ++ out.drop k) := by
  intro remaining
  induction remaining with
  | zero =>
    intro i out hik hout
    have hik' : i = k := by omega
    subst hik'
    simp [write_bytes_go, List.take_append_drop]
  | succ m ih =>
    intro i out hik hout
    have hidx : 8 - k + i < bytes.length := by omega
    have hiout : i < out.length := by omega
    have hget : bytes.get? (8 - k + i) = some (bytes.get ⟨8 - k + i, hidx⟩) :=
      List.get?_eq_get hidx
    rw [write_bytes_go, hget]
    simp only [hiout, if_pos]
    rw [ih (i + 1) (out.set i (bytes.get ⟨8 - k + i, hidx⟩)) (by omega) (by simpa using hout)]
    congr 1
    have hset : out.set i (bytes.get ⟨8 - k + i, hidx⟩) =
        out.take i ++ bytes.get ⟨8 - k + i, hidx⟩ :: out.drop (i + 1) :=
      List.set_eq_take_cons_drop _ hiout
    have htake : (out.set i (bytes.get ⟨8 - k + i, hidx⟩)).take (i + 1) =
        out.take i ++ [bytes.get ⟨8 - k + i, hidx⟩] := by
      rw [hset, List.take_append_eq_append_take]
      have h1 : (out.take i).length = i := List.length_take_of_le (by omega)
      rw [h1]
      have h2 : (out.take i).take (i + 1) = out.take i :=
        List.take_of_length_le (by rw [h1]; omega)
      rw [h2]
      simp
    have hdrop : (out.set i (bytes.get ⟨8 - k + i, hidx⟩)).drop k = out.drop k := by
      rw [hset, List.drop_append_eq_append_drop]
      have h1 : (out.take i).length = i := List.length_take_of_le (by omega)
      have h2 : (out.take i).drop k = [] := by
        apply List.drop_eq_nil_of_le
        rw [h1]; omega
      rw [h1, h2]
      have h3 : k - i = (k - (i + 1)) + 1 := by omega
      rw [h3]
      simp only [List.nil_append, List.drop_succ_cons, List.drop_drop]
      congr 1
      omega
    have hbd : bytes.drop (8 - k + i) =
        bytes.get ⟨8 - k + i, hidx⟩ :: bytes.drop (8 - k + i + 1) :=
      List.drop_eq_get_cons hidx
    have hidxeq : 8 - k + (i + 1) = 8 - k + i + 1 := by omega
    rw [htake, hdrop, hbd, hidxeq]
    simp only [List.take_succ_cons, List.append_assoc, List.cons_append, List.nil_append]

theorem write_bytes_spec (n k : Nat) (out : List Nat) (hk : k ≤ 8)
    (hout : k ≤ out.length) :
    write_bytes n k out = some ((be_bytes n).drop (8 - k) ++ out.drop k) := by
  rw [write_bytes, write_bytes_go_spec (be_bytes n) k hk (be_bytes_length n) k 0 out
    (by omega) hout]
  have h0 : 8 - k + 0 = 8 - k := by omega
  have hlen : ((be_bytes n).drop (8 - k)).length ≤ k := by
    rw [List.length_drop, be_bytes_length]; omega
  rw [h0, List.take_zero, List.nil_append, List.take_of_length_le hlen]

/-! ## Characterization of `encode` -/

theorem encBytes_length (n : Nat) : (encBytes n).length = encoding_length n := by
  unfold encBytes
  split_ifs with h
  · simp [encoding_length, h]
  · have h2 := encoding_length_two_le n (by omega)
    have h9 := encoding_length_le_nine n
    simp only [List.length_cons, List.length_drop, be_bytes_length]
    omega

theorem encode_spec (n : Nat) (out : List Nat) (h : encoding_length n ≤ out.length) :
    encode n out =
      some (encBytes n ++ out.drop (encoding_length n), encoding_length n) := by
  have hpos := encoding_length_pos n
  match out with
  | [] => simp at h; omega
  | b0 :: rest =>
    by_cases h1 : n < 248
    · simp [encode, encBytes, encoding_length, h1, Nat.mod_eq_of_lt (by omega : n < 256)]
    · by_cases h2 : n < 256
      · have hL : encoding_length n = 2 := by unfold encoding_length; split_ifs <;> omega
        have hr : 1 ≤ rest.length := by simp [hL] at h; simpa using h
        simp [encode, encBytes, encoding_length, h1, h2,
          write_bytes_spec n 1 rest (by omega) hr]
      · by_cases h3 : n < 65536
        · have hL : encoding_length n = 3 := by unfold encoding_length; split_ifs <;> omega
          have hr : 2 ≤ rest.length := by simp [hL] at h; simpa using h
          simp [encode, encBytes, encoding_length, h1, h2, h3,
            write_bytes_spec n 2 rest (by omega) hr]
        · by_cases h4 : n < 16777216
          · have hL : encoding_length n = 4 := by unfold encoding_length; split_ifs <;> omega
            have hr : 3 ≤ rest.length := by simp [hL] at h; simpa using h
            simp [encode, encBytes, encoding_length, h1, h2, h3, h4,
              write_bytes_spec n 3 rest (by omega) hr]
          · by_cases h5 : n < 4294967296
            · have hL : encoding_length n = 5 := by unfold encoding_length; split_ifs <;> omega
              have hr : 4 ≤ rest.length := by simp [hL] at h; simpa using h
              simp [encode, encBytes, encoding_length, h1, h2, h3, h4, h5,
                write_bytes_spec n 4 rest (by omega) hr]
            · by_cases h6 : n < 1099511627776
              · have hL : encoding_length n = 6 := by
                  unfold encoding_length; split_ifs <;> omega
                have hr : 5 ≤ rest.length := by simp [hL] at h; simpa using h
                simp [encode, encBytes, encoding_length, h1, h2, h3, h4, h5, h6,
                  write_bytes_spec n 5 rest (by omega) hr]
              · by_cases h7 : n < 281474976710656
                · have hL : encoding_length n = 7 := by
                    unfold encoding_length; split_ifs <;> omega
                  have hr : 6 ≤ rest.length := by simp [hL] at h; simpa using h
                  simp [encode, encBytes, encoding_length, h1, h2, h3, h4, h5, h6, h7,
                    write_bytes_spec n 6 rest (by omega) hr]
                · by_cases h8 : n < 72057594037927936
                  · have hL : encoding_length n = 8 := by
                      unfold encoding_length; split_ifs <;> omega
                    have hr : 7 ≤ rest.length := by simp [hL] at h; simpa using h
                    simp [encode, encBytes, encoding_length, h1, h2, h3, h4, h5, h6, h7, h8,
                      write_bytes_spec n 7 rest (by omega) hr]
                  · have hL : encoding_length n = 9 := by
                      unfold encoding_length; split_ifs <;> omega
                    have hr : 8 ≤ rest.length := by simp [hL] at h; simpa using h
                    simp [encode, encBytes, encoding_length, h1, h2, h3, h4, h5, h6, h7, h8,
                      write_bytes_spec n 8 rest (by omega) hr]

/-! ## Characterization of `decode` -/

theorem decodeLoop_ok (input : List Nat) :
    ∀ remaining i a, i + remaining ≤ input.length →
      decodeLoop input i a remaining = .ok (accumList a ((input.drop i).take remaining)) := by
  intro remaining
  induction remaining with
  | zero => intro i a _; simp [decodeLoop, accumList]
  | succ m ih =>
    intro i a hle
    have hi : i < input.length := by omega
    have hget : input.get? i = some (input.get ⟨i, hi⟩) := List.get?_eq_get hi
    simp only [decodeLoop, hget]
    rw [ih (i + 1) _ (by omega)]
    have hdt : input.drop i = input.get ⟨i, hi⟩ :: input.drop (i + 1) :=
      List.drop_eq_get_cons hi
    rw [hdt, List.take_succ_cons, accumList_cons]

theorem decodeLoop_err (input : List Nat) :
    ∀ remaining i a, input.length < i + remaining → i ≤ input.length →
      decodeLoop input i a remaining = .error input.length := by
  intro remaining
  induction remaining with
  | zero => intro i a h1 h2; omega
  | succ m ih =>
    intro i a h1 h2
    by_cases hi : i < input.length
    · have hget : input.get? i = some (input.get ⟨i, hi⟩) := List.get?_eq_get hi
      rw [decodeLoop, hget]
      exact ih (i + 1) _ (by omega) (by omega)
    · have hieq : i = input.length := by omega
      have hget : input.get? i = none := by
        rw [List.get?_eq_none]; omega
      rw [decodeLoop, hget, hieq]

theorem decode_cons_nonheader (first : Nat) (tail : List Nat)
    (hor : ¬first ||| 7 = 255) :
    decode (first :: tail) = some (.ok first tail) := by
  simp [decode, hor, sliceFrom]

theorem decode_cons_small (first : Nat) (tail : List Nat) (h : first < 248) :
    decode (first :: tail) = some (.ok first tail) :=
  decode_cons_nonheader first tail (header_or_of_small first h)

theorem decode_cons_big_short (first : Nat) (tail : List Nat)
    (hor : first ||| 7 = 255) (hshort : tail.length < (first &&& 7) + 1) :
    decode (first :: tail) = some (.err .UnexpectedEndOfInput []) := by
  have hlen : (first :: tail).length = tail.length + 1 := rfl
  have hloop := decodeLoop_err (first :: tail) ((first &&& 7) + 2 - 1) 1 0
    (by rw [hlen]; omega) (by rw [hlen]; omega)
  simp only [decode, List.get?_cons_zero, hor, if_pos, hloop]
  have hslice : sliceFrom (first :: tail) (first :: tail).length = some [] := by
    simp [sliceFrom]
  rw [hslice]

theorem decode_cons_big_full (first : Nat) (tail : List Nat)
    (hor : first ||| 7 = 255) (hlen : (first &&& 7) + 1 ≤ tail.length) :
    decode (first :: tail) =
      (if (first &&& 7) + 2 > encoding_length (accumList 0 (tail.take ((first &&& 7) + 1)))
       then some (.err (.NonCanonical (accumList 0 (tail.take ((first &&& 7) + 1))))
         (tail.drop ((first &&& 7) + 1)))
       else some (.ok (accumList 0 (tail.take ((first &&& 7) + 1)))
         (tail.drop ((first &&& 7) + 1)))) := by
  have hlen' : (first :: tail).length = tail.length + 1 := rfl
  have hloop := decodeLoop_ok (first :: tail) ((first &&& 7) + 2 - 1) 1 0
    (by rw [hlen']; omega)
  simp only [decode, List.get?_cons_zero, hor, if_pos, hloop]
  have hd1 : (first :: tail).drop 1 = tail := rfl
  have he : (first &&& 7) + 2 - 1 = (first &&& 7) + 1 := by omega
  have hslice : sliceFrom (first :: tail) ((first &&& 7) + 2) =
      some (tail.drop ((first &&& 7) + 1)) := by
    simp only [sliceFrom, hlen']
    rw [if_pos (by omega)]
    congr 1
  rw [he, hd1, hslice]

theorem take_append_of_length (l₁ l₂ : List Nat) (m : Nat) (h : l₁.length = m) :
    (l₁ ++ l₂).take m = l₁ := by
  subst h
  simp [List.take_append_eq_append_take, List.take_of_length_le (Nat.le_refl _)]

theorem drop_append_of_length (l₁ l₂ : List Nat) (m : Nat) (h : l₁.length = m) :
    (l₁ ++ l₂).drop m = l₂ := by
  subst h
  simp [List.drop_append_eq_append_drop, List.drop_eq_nil_of_le (Nat.le_refl _)]

/-- Decoding the canonical encoding of `v < 2^64` followed by any extra bytes
succeeds with value `v` and remainder exactly those extra bytes. -/
theorem decode_encBytes (v : Nat) (h64 : v < 2 ^ 64) (extra : List Nat) :
    decode (encBytes v ++ extra) = some (.ok v extra) := by
  by_cases h : v < 248
  · rw [encBytes, if_pos h]
    exact decode_cons_small v extra h
  · have h2 := encoding_length_two_le v (by omega)
    have h9 := encoding_length_le_nine v
    have hvp : v < 2 ^ (8 * (encoding_length v - 1)) := by
      rcases encoding_length_lt_pow v h64 with hp | hp
    -- the second disjunct contradicts h
      · exact hp
      · omega
    rw [encBytes, if_neg h, List.cons_append]
    set L := encoding_length v with hLdef
    have hand : (246 + L) &&& 7 = L - 2 := by
      have := header_and_of_big (246 + L) (by omega) (by omega)
      omega
    have hpay_len : ((be_bytes v).drop (9 - L)).length = L - 1 := by
      rw [List.length_drop, be_bytes_length]; omega
    have hCons := decode_cons_big_full (246 + L) ((be_bytes v).drop (9 - L) ++ extra)
      (header_or_of_big (246 + L) (by omega) (by omega))
      (by rw [List.length_append, hpay_len, hand]; omega)
    rw [hand] at hCons
    have hL1 : L - 2 + 1 = L - 1 := by omega
    rw [hL1] at hCons
    have htake : ((be_bytes v).drop (9 - L) ++ extra).take (L - 1) =
        (be_bytes v).drop (9 - L) :=
      take_append_of_length _ _ _ hpay_len
    have hdrop : ((be_bytes v).drop (9 - L) ++ extra).drop (L - 1) = extra :=
      drop_append_of_length _ _ _ hpay_len
    rw [htake, hdrop] at hCons
    have hbytes : ∀ b ∈ (be_bytes v).drop (9 - L), b < 256 := by
      intro b hb
      exact be_bytes_lt v b (List.mem_of_mem_drop hb)
    have hbound : bePlus 0 ((be_bytes v).drop (9 - L)) < 2 ^ 64 := by
      have := bePlus_lt ((be_bytes v).drop (9 - L)) 0 hbytes
      rw [hpay_len] at this
      calc bePlus 0 ((be_bytes v).drop (9 - L)) < (0 + 1) * 256 ^ (L - 1) := this
      _ = (2 ^ 8) ^ (L - 1) := by norm_num
      _ = 2 ^ (8 * (L - 1)) := by rw [← pow_mul]
      _ ≤ 2 ^ 64 := Nat.pow_le_pow_right (by norm_num) (by omega)
    have haccum : accumList 0 ((be_bytes v).drop (9 - L)) = v := by
      rw [accumList_eq_bePlus _ _ hbound]
      have h98 : 9 - L = 8 - (L - 1) := by omega
      rw [h98, bePlus_be_bytes_drop v (L - 1) (by omega)]
      exact Nat.mod_eq_of_lt (lt_of_lt_of_le hvp (Nat.pow_le_pow_right (by norm_num)
        (Nat.le_refl _)))
    rw [haccum] at hCons
    rw [hCons, if_neg (by omega)]

set_option maxHeartbeats 1000000 in
theorem encoding_length_mono (v w : Nat) (h : v ≤ w) :
    encoding_length v ≤ encoding_length w := by
  unfold encoding_length
  split_ifs <;> omega

/-! ## Claims -/

/-- C1: for every u64 value `v`, `encode v` on a buffer of length at least
`encoding_length v` writes exactly `encoding_length v` bytes, and decoding
those written bytes returns `ok v` with empty remainder — in particular
`decode` never reports `NonCanonical` on bytes produced by `encode`. -/
theorem C1_encode_decode_round_trip (v : Nat) (h64 : v < 2 ^ 64) (buf : List Nat)
    (hbuf : encoding_length v ≤ buf.length) :
    ∃ written, encode v buf = some (written, encoding_length v) ∧
      decode (written.take (encoding_length v)) = some (.ok v []) := by
  refine ⟨encBytes v ++ buf.drop (encoding_length v), encode_spec v buf hbuf, ?_⟩
  rw [take_append_of_length _ _ _ (encBytes_length v)]
  have h := decode_encBytes v h64 []
  rwa [List.append_nil] at h

theorem C1_encode_decode_round_trip_witness :
    (256 : Nat) < 2 ^ 64 ∧ encoding_length 256 ≤ List.length [0, 0, 0] ∧
      (∃ written, encode 256 [0, 0, 0] = some (written, encoding_length 256) ∧
        decode (written.take (encoding_length 256)) = some (.ok 256 [])) :=
  ⟨by norm_num, by decide,
    C1_encode_decode_round_trip 256 (by norm_num) [0, 0, 0] (by decide)⟩

set_option maxHeartbeats 1000000 in
/-- C2: `encoding_length` matches the bucket table exactly, is total with
value in `[1, 9]`, and is non-decreasing. -/
theorem C2_encoding_length_table :
    (∀ v : Nat, v < 248 → encoding_length v = 1) ∧
    (∀ v : Nat, 248 ≤ v → v < 2 ^ 8 → encoding_length v = 2) ∧
    (∀ v : Nat, 2 ^ 8 ≤ v → v < 2 ^ 16 → encoding_length v = 3) ∧
    (∀ v : Nat, 2 ^ 16 ≤ v → v < 2 ^ 24 → encoding_length v = 4) ∧
    (∀ v : Nat, 2 ^ 24 ≤ v → v < 2 ^ 32 → encoding_length v = 5) ∧
    (∀ v : Nat, 2 ^ 32 ≤ v → v < 2 ^ 40 → encoding_length v = 6) ∧
    (∀ v : Nat, 2 ^ 40 ≤ v → v < 2 ^ 48 → encoding_length v = 7) ∧
    (∀ v : Nat, 2 ^ 48 ≤ v → v < 2 ^ 56 → encoding_length v = 8) ∧
    (∀ v : Nat, 2 ^ 56 ≤ v → v < 2 ^ 64 → encoding_length v = 9) ∧
    (∀ v : Nat, v < 2 ^ 64 → 1 ≤ encoding_length v ∧ encoding_length v ≤ 9) ∧
    (∀ v w : Nat, v ≤ w → w < 2 ^ 64 → encoding_length v ≤ encoding_length w) := by
  refine ⟨?_, ?_, ?_, ?_, ?_, ?_, ?_, ?_, ?_,
    fun v _ => ⟨encoding_length_pos v, encoding_length_le_nine v⟩,
    fun v w h _ => encoding_length_mono v w h⟩ <;>
    · intros
      unfold encoding_length
      split_ifs <;> omega

theorem C2_encoding_length_table_witness :
    encoding_length 247 = 1 ∧ encoding_length 248 = 2 ∧ encoding_length 255 = 2 ∧
      encoding_length 256 = 3 ∧ encoding_length 65535 = 3 ∧ encoding_length 65536 = 4 ∧
      (1 ≤ encoding_length 42 ∧ encoding_length 42 ≤ 9) ∧
      encoding_length 247 ≤ encoding_length 65536 :=
  ⟨C2_encoding_length_table.1 247 (by norm_num),
   C2_encoding_length_table.2.1 248 (by norm_num) (by norm_num),
   C2_encoding_length_table.2.1 255 (by norm_num) (by norm_num),
   C2_encoding_length_table.2.2.1 256 (by norm_num) (by norm_num),
   C2_encoding_length_table.2.2.1 65535 (by norm_num) (by norm_num),
   C2_encoding_length_table.2.2.2.1 65536 (by norm_num) (by norm_num),
   C2_encoding_length_table.2.2.2.2.2.2.2.2.2.1 42 (by norm_num),
   C2_encoding_length_table.2.2.2.2.2.2.2.2.2.2 247 65536 (by norm_num) (by norm_num)⟩

/-- C3: empty input, and any input starting with a multi-byte header
(`first ≥ 248`) but containing strictly fewer bytes than the declared frame
length `(first &&& 0b111) + 2`, decode to `UnexpectedEndOfInput` — never
`NonCanonical` — and the error remainder is the empty available tail. -/
theorem C3_truncation_unexpected_end :
    decode ([] : List Nat) = some (.err .UnexpectedEndOfInput []) ∧
    (∀ (first : Nat) (tail : List Nat), 248 ≤ first → first < 256 →
      (first :: tail).length < (first &&& 7) + 2 →
      decode (first :: tail) = some (.err .UnexpectedEndOfInput [])) := by
  refine ⟨rfl, ?_⟩
  intro first tail h248 h256 hshort
  have hlen : (first :: tail).length = tail.length + 1 := rfl
  exact decode_cons_big_short first tail (header_or_of_big first h256 h248)
    (by rw [hlen] at hshort; omega)

theorem C3_truncation_unexpected_end_witness :
    decode [248] = some (.err .UnexpectedEndOfInput []) ∧
      decode [255, 0, 1, 2, 3, 4, 5, 6] = some (.err .UnexpectedEndOfInput []) :=
  ⟨C3_truncation_unexpected_end.2 248 [] (by norm_num) (by norm_num) (by decide),
   C3_truncation_unexpected_end.2 255 [0, 1, 2, 3, 4, 5, 6] (by norm_num) (by norm_num)
     (by decide)⟩

/-- C4: a full declared frame `L = (first &&& 0b111) + 2` whose big-endian
accumulated value has a strictly smaller minimal encoding decodes to
`NonCanonical` carrying that value, with remainder `input[L..]` (the whole
frame is consumed); in particular `[248, 42]` and `[249, 0, 42]` decode to
`NonCanonical 42` with empty remainder. -/
theorem C4_noncanonical_full_frame :
    (∀ (first : Nat) (tail : List Nat), 248 ≤ first → first < 256 →
      (∀ b ∈ tail, b < 256) →
      (first &&& 7) + 1 ≤ tail.length →
      (first &&& 7) + 2 > encoding_length (beVal (tail.take ((first &&& 7) + 1))) →
      decode (first :: tail) =
        some (.err (.NonCanonical (beVal (tail.take ((first &&& 7) + 1))))
          ((first :: tail).drop ((first &&& 7) + 2)))) ∧
    decode [248, 42] = some (.err (.NonCanonical 42) []) ∧
    decode [249, 0, 42] = some (.err (.NonCanonical 42) []) := by
  refine ⟨?_, by decide, by decide⟩
  intro first tail h248 h256 hb hlen hnc
  have hfull := decode_cons_big_full first tail (header_or_of_big first h256 h248) hlen
  have htb : ∀ b ∈ tail.take ((first &&& 7) + 1), b < 256 := fun b hbm =>
    hb b (List.mem_of_mem_take hbm)
  have hbound : bePlus 0 (tail.take ((first &&& 7) + 1)) < 2 ^ 64 := by
    have hlt := bePlus_lt _ 0 htb
    have hlen8 : (tail.take ((first &&& 7) + 1)).length ≤ 8 := by
      rw [List.length_take]
      have := header_and_lt first
      omega
    calc bePlus 0 (tail.take ((first &&& 7) + 1))
        < (0 + 1) * 256 ^ (tail.take ((first &&& 7) + 1)).length := hlt
    _ ≤ 256 ^ 8 := by
        rw [Nat.one_mul]
        exact Nat.pow_le_pow_right (by norm_num) hlen8
    _ ≤ 2 ^ 64 := by norm_num
  have haccum : accumList 0 (tail.take ((first &&& 7) + 1)) =
      beVal (tail.take ((first &&& 7) + 1)) :=
    accumList_eq_bePlus _ 0 hbound
  have hrem : (first :: tail).drop ((first &&& 7) + 2) =
      tail.drop ((first &&& 7) + 1) := rfl
  rw [hrem, hfull, haccum, if_pos hnc]

theorem C4_noncanonical_full_frame_witness :
    decode [249, 0, 42] =
      some (.err (.NonCanonical (beVal ([0, 42].take ((249 &&& 7) + 1))))
        ([249, 0, 42].drop ((249 &&& 7) + 2))) :=
  C4_noncanonical_full_frame.1 249 [0, 42] (by norm_num) (by norm_num) (by decide)
    (by decide) (by decide)

/-- C5: for `248 ≤ v < 2^64` with bucket length `L = encoding_length v`,
`encode` writes header `246 + L` followed by the `L - 1` least significant
bytes of `v` in big-endian order and returns `L`; and `write_bytes` copies
exactly the last `k` bytes of the 8-byte big-endian representation, for every
`k ≤ 8`. -/
theorem C5_multibyte_layout :
    (∀ (v : Nat) (buf : List Nat), 248 ≤ v → v < 2 ^ 64 →
      encoding_length v ≤ buf.length →
      ∃ written, encode v buf = some (written, encoding_length v) ∧
        written.take (encoding_length v) =
          (246 + encoding_length v) :: (be_bytes v).drop (9 - encoding_length v)) ∧
    (∀ (n k : Nat) (out : List Nat), k ≤ 8 → k ≤ out.length →
      write_bytes n k out = some ((be_bytes n).drop (8 - k) ++ out.drop k)) := by
  constructor
  · intro v buf h248 _h64 hbuf
    refine ⟨encBytes v ++ buf.drop (encoding_length v), encode_spec v buf hbuf, ?_⟩
    rw [take_append_of_length _ _ _ (encBytes_length v), encBytes, if_neg (by omega)]
  · intro n k out hk hout
    exact write_bytes_spec n k out hk hout

theorem C5_multibyte_layout_witness :
    (∃ written, encode 256 [0, 0, 0] = some (written, encoding_length 256) ∧
      written.take (encoding_length 256) =
        (246 + encoding_length 256) :: (be_bytes 256).drop (9 - encoding_length 256)) ∧
    write_bytes 65536 8 [9, 9, 9, 9, 9, 9, 9, 9, 9] =
      some ((be_bytes 65536).drop (8 - 8) ++ [9, 9, 9, 9, 9, 9, 9, 9, 9].drop 8) :=
  ⟨C5_multibyte_layout.1 256 [0, 0, 0] (by norm_num) (by norm_num) (by decide),
   C5_multibyte_layout.2 65536 8 [9, 9, 9, 9, 9, 9, 9, 9, 9] (by norm_num) (by decide)⟩

/-- C6: every non-empty input whose first byte is `< 248` decodes
unconditionally to that byte with remainder `input[1..]`; the single-byte
form is never `NonCanonical`. -/
theorem C6_single_byte_decode (first : Nat) (tail : List Nat) (h : first < 248) :
    decode (first :: tail) = some (.ok first tail) :=
  decode_cons_small first tail h

theorem C6_single_byte_decode_witness : decode [5, 7] = some (.ok 5 [7]) :=
  C6_single_byte_decode 5 [7] (by norm_num)

/-- C7: decoding the concatenation of two canonical encodings yields the
first value with the second encoding as remainder, and decoding that
remainder yields the second value with empty remainder. -/
theorem C7_sequential_decode (v1 v2 : Nat) (h1 : v1 < 2 ^ 64) (h2 : v2 < 2 ^ 64)
    (b1 b2 : List Nat) (hb1 : encoding_length v1 ≤ b1.length)
    (hb2 : encoding_length v2 ≤ b2.length) :
    ∃ w1 w2, encode v1 b1 = some (w1, encoding_length v1) ∧
      encode v2 b2 = some (w2, encoding_length v2) ∧
      decode (w1.take (encoding_length v1) ++ w2.take (encoding_length v2)) =
        some (.ok v1 (w2.take (encoding_length v2))) ∧
      decode (w2.take (encoding_length v2)) = some (.ok v2 []) := by
  refine ⟨encBytes v1 ++ b1.drop (encoding_length v1),
    encBytes v2 ++ b2.drop (encoding_length v2),
    encode_spec v1 b1 hb1, encode_spec v2 b2 hb2, ?_, ?_⟩
  · rw [take_append_of_length _ _ _ (encBytes_length v1),
      take_append_of_length _ _ _ (encBytes_length v2)]
    exact decode_encBytes v1 h1 (encBytes v2)
  · rw [take_append_of_length _ _ _ (encBytes_length v2)]
    have h := decode_encBytes v2 h2 []
    rwa [List.append_nil] at h

theorem C7_sequential_decode_witness :
    ∃ w1 w2, encode 1 [0] = some (w1, encoding_length 1) ∧
      encode 248 [0, 0] = some (w2, encoding_length 248) ∧
      decode (w1.take (encoding_length 1) ++ w2.take (encoding_length 248)) =
        some (.ok 1 (w2.take (encoding_length 248))) ∧
      decode (w2.take (encoding_length 248)) = some (.ok 248 []) :=
  C7_sequential_decode 1 248 (by norm_num) (by norm_num) [0] [0, 0] (by decide) (by decide)

/-- C8: `decode` is total and never panics: every input maps to `some`
result (`ok`, `NonCanonical` or `UnexpectedEndOfInput`); all slice accesses
are in bounds. -/
theorem C8_decode_total (input : List Nat) : ∃ r, decode input = some r := by
  match input with
  | [] => exact ⟨.err .UnexpectedEndOfInput [], rfl⟩
  | first :: tail =>
    by_cases hor : first ||| 7 = 255
    · by_cases hlen : (first &&& 7) + 1 ≤ tail.length
      · rw [decode_cons_big_full first tail hor hlen]
        split_ifs
        · exact ⟨_, rfl⟩
        · exact ⟨_, rfl⟩
      · rw [decode_cons_big_short first tail hor (by omega)]
        exact ⟨_, rfl⟩
    · rw [decode_cons_nonheader first tail hor]
      exact ⟨_, rfl⟩

/-- C9: on a buffer of length at least `encoding_length n`, `encode` does
not panic, writes only positions `0` through `encoding_length n - 1`, and
leaves every byte at index `≥ encoding_length n` unchanged. -/
theorem C9_encode_frame_effect (n : Nat) (buf : List Nat)
    (hbuf : encoding_length n ≤ buf.length) :
    ∃ written, encode n buf = some (written, encoding_length n) ∧
      written.length = buf.length ∧
      written.drop (encoding_length n) = buf.drop (encoding_length n) := by
  refine ⟨encBytes n ++ buf.drop (encoding_length n), encode_spec n buf hbuf, ?_, ?_⟩
  · rw [List.length_append, encBytes_length, List.length_drop]
    omega
  · exact drop_append_of_length _ _ _ (encBytes_length n)

theorem C9_encode_frame_effect_witness :
    ∃ written, encode 5 [7, 8, 9] = some (written, encoding_length 5) ∧
      written.length = List.length [7, 8, 9] ∧
      written.drop (encoding_length 5) = [7, 8, 9].drop (encoding_length 5) :=
  C9_encode_frame_effect 5 [7, 8, 9] (by decide)

/-- C10: whenever `decode` succeeds with value `v`, the number of consumed
bytes is exactly `encoding_length v` and the remainder is the input suffix
at that offset: a frame is accepted only in its canonical length. -/
theorem C10_ok_consumes_encoding_length (input : List Nat)
    (hbytes : ∀ b ∈ input, b < 256) (v : Nat) (rest : List Nat)
    (h : decode input = some (.ok v rest)) :
    rest = input.drop (encoding_length v) ∧
    input.length - rest.length = encoding_length v := by
  match input with
  | [] =>
    rw [show decode ([] : List Nat) = some (.err .UnexpectedEndOfInput []) from rfl] at h
    simp at h
  | first :: tail =>
    have hfirst : first < 256 := hbytes first (List.mem_cons_self first tail)
    by_cases hor : first ||| 7 = 255
    · have h248 : 248 ≤ first := by
        by_contra hc
        push_neg at hc
        exact header_or_of_small first hc hor
      by_cases hlen : (first &&& 7) + 1 ≤ tail.length
      · rw [decode_cons_big_full first tail hor hlen] at h
        set acc := accumList 0 (tail.take ((first &&& 7) + 1)) with hacc
        split_ifs at h with hif
        · simp at h
        · simp only [Option.some.injEq, DecodeResult.ok.injEq] at h
          obtain ⟨hv, hrest⟩ := h
          have htb : ∀ b ∈ tail.take ((first &&& 7) + 1), b < 256 := fun b hbm =>
            hbytes b (List.mem_cons_of_mem first (List.mem_of_mem_take hbm))
          have hlen_take : (tail.take ((first &&& 7) + 1)).length = (first &&& 7) + 1 :=
            List.length_take_of_le hlen
          have hacc_lt : acc < 2 ^ (8 * ((first &&& 7) + 1)) := by
            have hlt := bePlus_lt (tail.take ((first &&& 7) + 1)) 0 htb
            rw [hlen_take, Nat.one_mul] at hlt
            have hb64 : (256 : Nat) ^ ((first &&& 7) + 1) = 2 ^ (8 * ((first &&& 7) + 1)) := by
              rw [show (256 : Nat) = 2 ^ 8 from by norm_num, ← pow_mul]
            have h2_64 : bePlus 0 (tail.take ((first &&& 7) + 1)) < 2 ^ 64 := by
              have hmax : (256 : Nat) ^ ((first &&& 7) + 1) ≤ 256 ^ 8 := by
                apply Nat.pow_le_pow_right (by norm_num)
                have := header_and_lt first
                omega
              calc bePlus 0 (tail.take ((first &&& 7) + 1)) < 256 ^ ((first &&& 7) + 1) := hlt
              _ ≤ 256 ^ 8 := hmax
              _ ≤ 2 ^ 64 := by norm_num
            rw [hacc, accumList_eq_bePlus _ 0 h2_64, ← hb64]
            exact hlt
          have hle : encoding_length acc ≤ (first &&& 7) + 2 :=
            encoding_length_le_of_lt_pow ((first &&& 7) + 2) acc (by omega)
              (by have := header_and_lt first; omega)
              (by
                have he : (first &&& 7) + 2 - 1 = (first &&& 7) + 1 := by omega
                rw [he]
                exact hacc_lt)
          have hLeq : encoding_length v = (first &&& 7) + 2 := by
            rw [← hv]; omega
          constructor
          · rw [← hrest, hLeq]
            rfl
          · rw [← hrest, hLeq, List.length_drop]
            have : (first :: tail).length = tail.length + 1 := rfl
            rw [this]
            omega
      · rw [decode_cons_big_short first tail hor (by omega)] at h
        simp at h
    · rw [decode_cons_nonheader first tail hor] at h
      simp only [Option.some.injEq, DecodeResult.ok.injEq] at h
      obtain ⟨hv, hrest⟩ := h
      have hsmall : first < 248 := lt_of_header_or_ne first hfirst hor
      have hL : encoding_length v = 1 := by
        rw [← hv]; unfold encoding_length; rw [if_pos hsmall]
      constructor
      · rw [← hrest, hL]
        rfl
      · rw [← hrest, hL]
        have : (first :: tail).length = tail.length + 1 := rfl
        rw [this]
        omega

theorem C10_ok_consumes_encoding_length_witness :
    [7] = [5, 7].drop (encoding_length 5) ∧
      List.length [5, 7] - List.length [7] = encoding_length 5 :=
  C10_ok_consumes_encoding_length [5, 7] (by decide) 5 [7] (by decide)

end Varu64
